import Mathlib

/-!
Verification of the gitvigil event-to-signal analytics pipeline.

Shallow embedding of the Go sources:
* `internal/detection` — backdate detector (`AnalyzeBackdate`);
* `internal/scorecard` — overall score and status;
* `internal/webhook` — HMAC signature validation and push-commit ingestion;
* `internal/analysis` — conventional-commit parser, Gini coefficient,
  volume/consistency analysis.

Conventions: Go `time.Time` values are embedded as `Int` (seconds since epoch
for commit timestamps, hours since epoch for daily-activity dates, matching the
granularity at which the source manipulates them); Go `float64` arithmetic is
embedded as exact `ℚ` arithmetic; Go strings are embedded as `List Char`
(Go `range` indices land on rune boundaries in every slice the source takes,
so rune-level indexing agrees with the source's byte-level indexing there).
`int(f)` conversions of nonnegative-or-truncated quantities are embedded with
`Int.tdiv`, which truncates toward zero exactly as Go's conversion does on
exactly representable values.
-/

namespace GitVigil

/-! ## Detection configuration (internal/config, detection thresholds) -/

structure DetectionConfig where
  backdateSuspiciousHours : Int
  backdateCriticalHours : Int
deriving DecidableEq

/-! ## BackdateDetector (internal/detection, Detector.AnalyzeBackdate) -/

structure BackdateResult where
  authorDate : Int
  pushedAt : Int
  differenceHours : Int
  isSuspicious : Bool
  isCritical : Bool
deriving DecidableEq

/-- Embedding of `Detector.AnalyzeBackdate`: `diffHours := int(pushedAt.Sub(authorDate).Hours())`
with timestamps in seconds, then threshold comparisons. -/
def AnalyzeBackdate (cfg : DetectionConfig) (authorDate pushedAt : Int) : BackdateResult :=
  let diffHours := Int.tdiv (pushedAt - authorDate) 3600
  { authorDate := authorDate
    pushedAt := pushedAt
    differenceHours := diffHours
    isSuspicious := decide (diffHours > cfg.backdateSuspiciousHours)
    isCritical := decide (diffHours > cfg.backdateCriticalHours) }

/-! ## SignatureVerifier (internal/webhook, ValidateSignature) -/

inductive SignatureError where
  | missingSignature
  | invalidSignature
  | signatureMismatch
deriving DecidableEq

/-- Value of one hexadecimal digit, as `encoding/hex` accepts them. -/
def hexDigitVal (c : Char) : Option Nat :=
  if '0' ≤ c ∧ c ≤ '9' then some (c.toNat - '0'.toNat)
  else if 'a' ≤ c ∧ c ≤ 'f' then some (c.toNat - 'a'.toNat + 10)
  else if 'A' ≤ c ∧ c ≤ 'F' then some (c.toNat - 'A'.toNat + 10)
  else none

/-- Embedding of `hex.DecodeString`: fails on odd length or non-hex digits. -/
def hexDecode : List Char → Option (List Nat)
  | [] => some []
  | [_] => none
  | a :: b :: rest =>
    match hexDigitVal a, hexDigitVal b, hexDecode rest with
    | some hi, some lo, some bs => some ((hi * 16 + lo) :: bs)
    | _, _, _ => none

/-- Embedding of `strings.HasPrefix`: `leadsWith marker s` is true when `s`
starts with `marker`. -/
def leadsWith : List Char → List Char → Bool
  | [], _ => true
  | _ :: _, [] => false
  | a :: as, b :: bs => a == b && leadsWith as bs

/-- The `sha256=` marker the signature header must start with. -/
def sigMarker : List Char := "sha256=".data

/-- Embedding of `webhook.ValidateSignature`. The HMAC-SHA256 computation
(`crypto/hmac` keyed by the secret over the payload) enters as the function
`mac`; the control flow, hex decoding and debug output mirror the source. The
second component collects the `fmt.Printf` debug records the function emits,
each holding the computed (expected) and received digests. -/
def ValidateSignature (mac : List Nat → List Nat → List Nat)
    (payload : List Nat) (signature : List Char) (secret : List Nat) :
    Option SignatureError × List (List Nat × List Nat) :=
  if signature.isEmpty then (some SignatureError.missingSignature, [])
  else if ¬ leadsWith sigMarker signature = true then
    (some SignatureError.invalidSignature, [])
  else
    match hexDecode (signature.drop 7) with
    | none => (some SignatureError.invalidSignature, [])
    | some signatureBytes =>
      let expected := mac secret payload
      if expected = signatureBytes then (none, [])
      else (some SignatureError.signatureMismatch, [(expected, signatureBytes)])

/-! ## ScorecardAggregator (scorecard handler) -/

structure CheckResult where
  name : String
  status : String
  score : Nat
  description : String
deriving DecidableEq

inductive Severity where
  | info
  | warning
  | critical
deriving DecidableEq

/-- Embedding of `Handler.calculateOverallScore`: integer mean of check scores. -/
def calculateOverallScore (checks : List CheckResult) : Nat :=
  if checks.length = 0 then 0
  else (checks.map (fun c => c.score)).sum / checks.length

/-- Embedding of `Handler.getOverallStatus`: critical alerts dominate, then
score thresholds 80 and 50. -/
def getOverallStatus (score : Nat) (severityCounts : Severity → Nat) : String :=
  if severityCounts Severity.critical > 0 then "critical"
  else if score ≥ 80 then "healthy"
  else if score ≥ 50 then "warning"
  else "critical"

/-! ## ConventionalCommitParser (internal/analysis, regex-based) and the
hand-rolled parser on the webhook ingestion path -/

/-- RE2 word character (`\w`, ASCII). -/
def isWordChar (c : Char) : Bool := c.isAlphanum || c == '_'

/-- RE2 whitespace (`\s`). -/
def isSpaceGo (c : Char) : Bool :=
  c == ' ' || c == '\t' || c == '\n' || c == '\x0c' || c == '\r'

/-- The fixed conventional-commit type vocabulary (identical in both
parsers). -/
def validTypes : List (List Char) :=
  ["feat".data, "fix".data, "docs".data, "style".data, "refactor".data,
   "perf".data, "test".data, "build".data, "ci".data, "chore".data,
   "revert".data]

structure ConventionalCommit where
  typ : List Char
  scope : List Char
  description : List Char
  isBreaking : Bool
  isValid : Bool
deriving DecidableEq

/-- Description capture of the regex tail after the colon: `\s*` runs
greedily, then `.+` needs at least one character, backtracking into the
whitespace when everything after the colon is whitespace. `none` when nothing
follows the colon. -/
def descAfterColon (rest : List Char) : Option (List Char) :=
  if rest.isEmpty then none
  else
    let tl := rest.dropWhile isSpaceGo
    if tl.isEmpty then some (rest.drop (rest.length - 1)) else some tl

/-- Shared tail of the conventional-commit regex: optional `!`, the colon,
then the description; yields `(type, scope, breaking, description)`. -/
def matchBangColon (t s rest : List Char) :
    Option (List Char × List Char × Bool × List Char) :=
  match rest with
  | [] => none
  | c1 :: r1 =>
    if c1 = '!' then
      match r1 with
      | [] => none
      | c2 :: r2 =>
        if c2 = ':' then (descAfterColon r2).map (fun d => (t, s, true, d))
        else none
    else if c1 = ':' then (descAfterColon r1).map (fun d => (t, s, false, d))
    else none

/-- Continuation of the regex after the leading `\w+` run: optional
`\(([^)]+)\)` scope group, then the `!`/colon/description tail. -/
def matchAfterType (t rest : List Char) :
    Option (List Char × List Char × Bool × List Char) :=
  match rest with
  | [] => matchBangColon t [] rest
  | c :: r2 =>
    if c = '(' then
      let s := r2.takeWhile (fun x => x != ')')
      let r3 := r2.dropWhile (fun x => x != ')')
      if s.isEmpty then none
      else
        match r3 with
        | [] => none
        | c3 :: r4 => if c3 = ')' then matchBangColon t s r4 else none
    else matchBangColon t [] rest

/-- Deterministic embedding of the RE2 pattern
`^(\w+)(?:\(([^)]+)\))?(!)?:\s*(.+)` applied to a line without newlines: the
leading `\w+` is forced to the maximal word-character run (no continuation of
the pattern starts with a word character), the scope group is forced to the
run up to the first closing parenthesis, and a failed optional-group or `!`
attempt cannot be rescued by backtracking because the leftover `(` or `!`
can never match the mandatory colon. -/
def matchConventionalLine (line : List Char) :
    Option (List Char × List Char × Bool × List Char) :=
  let t := line.takeWhile isWordChar
  if t.isEmpty then none
  else matchAfterType t (line.dropWhile isWordChar)

/-- Embedding of `analysis.ParseConventionalCommit`: take the first line,
run the regex, lower-case the type and check it against the vocabulary. -/
def ParseConventionalCommit (message : List Char) : ConventionalCommit :=
  if message.isEmpty then ⟨[], [], [], false, false⟩
  else
    let firstLine := message.takeWhile (fun c => c != '\n')
    match matchConventionalLine firstLine with
    | none => ⟨[], [], [], false, false⟩
    | some (t, s, bang, d) =>
      let commitType := t.map Char.toLower
      if commitType ∈ validTypes then ⟨commitType, s, d, bang, true⟩
      else ⟨[], [], [], false, false⟩

/-- First index of `c` in `s` (`indexOf` in the webhook package); `none`
embeds Go's `-1` sentinel. -/
def indexOfChar : List Char → Char → Option Nat
  | [], _ => none
  | x :: xs, c =>
    if x == c then some 0 else (indexOfChar xs c).map (fun i => i + 1)

/-- Index of the first colon before any newline (the scan loop opening
`webhook.parseConventionalCommit`). -/
def findColonIdx : List Char → Option Nat
  | [] => none
  | c :: rest =>
    if c == ':' then some 0
    else if c == '\n' then none
    else (findColonIdx rest).map (fun i => i + 1)

/-- Embedding of the hand-rolled `webhook.parseConventionalCommit` used when
persisting commit facts; returns `(isConventional, type, scope)`. -/
def parseConventionalCommitGo (message : List Char) : Bool × List Char × List Char :=
  if message.isEmpty then (false, [], [])
  else
    match findColonIdx message with
    | none => (false, [], [])
    | some colonIdx =>
      if colonIdx = 0 then (false, [], [])
      else
      let pre := message.take colonIdx
      match indexOfChar pre '(' with
      | some p =>
        match indexOfChar pre ')' with
        | some q =>
          if p < q then
            let commitType := pre.take p
            let scope := (pre.drop (p + 1)).take (q - (p + 1))
            if commitType ∈ validTypes then (true, commitType, scope)
            else (false, [], [])
          else (false, [], [])
        | none => (false, [], [])
      | none =>
        if pre ∈ validTypes then (true, pre, []) else (false, [], [])

/-! ## DistributionAnalyzer (internal/analysis/distribution.go) -/

/-- The accumulation loop of `calculateGini`: the 1-indexed weighted sum
`Σ (i+1)·vᵢ` over the list, with `i` the running index. -/
def giniWeighted : Nat → List ℚ → ℚ
  | _, [] => 0
  | i, v :: rest => ((i : ℚ) + 1) * v + giniWeighted (i + 1) rest

/-- Embedding of `calculateGini` (`float64` arithmetic as exact rationals):
sort ascending, accumulate `sum = Σ (i+1)·vᵢ` and `cumSum = Σ vᵢ` over the
sorted values, then `G = 2·sum/(n·cumSum) − (n+1)/n`; 0 for an empty list or
a zero `cumSum`. -/
def calculateGini (values : List ℚ) : ℚ :=
  let n := values.length
  if n = 0 then 0
  else
    let sorted := values.mergeSort (fun a b => a ≤ b)
    let sum := giniWeighted 0 sorted
    let cumSum := sorted.sum
    if cumSum = 0 then 0
    else 2 * sum / ((n : ℚ) * cumSum) - ((n : ℚ) + 1) / (n : ℚ)

/-! ## VolumeAnalyzer (internal/analysis/volume.go) -/

structure DailyActivity where
  date : Int
  commits : Nat
  additions : Nat
  deletions : Nat
deriving DecidableEq, Inhabited

structure DayBreakdown where
  date : Int
  commits : Nat
  additions : Nat
  deletions : Nat
  pct : ℚ
deriving DecidableEq

structure VolumeAnalysis where
  totalDays : Int
  activeDays : Nat
  totalCommits : Nat
  totalAdditions : Nat
  totalDeletions : Nat
  averagePerDay : ℚ
  maxDailyCommits : Nat
  pattern : String
  patternDesc : String
  consistencyScore : ℚ
  lastDayPercentage : ℚ
  dailyBreakdown : List DayBreakdown
deriving DecidableEq

/-- Embedding of `calculateConsistencyScore`: average of the active-day rate
over the window and the inverse-variance score `100/(1 + variance/mean)`. -/
def calculateConsistencyScore (activities : List DailyActivity) (totalDays : Int) : ℚ :=
  if totalDays = 0 ∨ activities = [] then 0
  else
    let activeDays := (activities.filter (fun a => a.commits > 0)).length
    let activityRate := (activeDays : ℚ) / (totalDays : ℚ) * 100
    let mean := (activities.map (fun a => (a.commits : ℚ))).sum / (activities.length : ℚ)
    let variance :=
      (activities.map (fun a => ((a.commits : ℚ) - mean) ^ 2)).sum
        / (activities.length : ℚ)
    let varianceScore := 100 / (1 + variance / mean)
    (activityRate + varianceScore) / 2

/-- Commits in the final stretch of the daily breakdown inspected by the
deadline-dumper check: the last `max(1, ⌊totalDays·20/100⌋)` entries. -/
def lastPeriodCommits (a : VolumeAnalysis) : Nat :=
  let lastDays := max (Int.tdiv (a.totalDays * 20) 100) 1
  let startIdx := max ((a.dailyBreakdown.length : Int) - lastDays) 0
  ((a.dailyBreakdown.drop startIdx.toNat).map (fun b => b.commits)).sum

/-- Embedding of `VolumeAnalysis.determinePattern`: priority-ordered
classification written on an analysis whose numeric fields are already
filled. -/
def determinePattern (a : VolumeAnalysis) : VolumeAnalysis :=
  if a.totalCommits = 0 then
    { a with pattern := "no_activity", patternDesc := "No activity recorded" }
  else if 0 < a.totalDays
      ∧ 50 < (lastPeriodCommits a : ℚ) / (a.totalCommits : ℚ) * 100 then
    { a with pattern := "deadline_dumper",
             patternDesc := "Most commits pushed near the deadline" }
  else if (70 : ℚ) ≤ a.consistencyScore then
    { a with pattern := "daily_builder",
             patternDesc := "Consistent daily activity throughout the period" }
  else if (40 : ℚ) ≤ a.consistencyScore then
    { a with pattern := "moderate_builder",
             patternDesc := "Moderately consistent activity" }
  else if a.averagePerDay * 3 < (a.maxDailyCommits : ℚ) then
    { a with pattern := "burst_coder",
             patternDesc := "Activity comes in bursts with quiet periods between" }
  else
    { a with pattern := "sporadic", patternDesc := "Irregular activity pattern" }

/-- Embedding of `AnalyzeVolume`. Dates are in hours; the explicit
observation window is `some (hackathonStart, hackathonEnd)` when both bounds
are set (non-zero `time.Time` in the source) and `none` otherwise. -/
def AnalyzeVolume (activities : List DailyActivity)
    (window : Option (Int × Int)) : VolumeAnalysis :=
  if activities = [] then
    { totalDays := 0, activeDays := 0, totalCommits := 0, totalAdditions := 0,
      totalDeletions := 0, averagePerDay := 0, maxDailyCommits := 0,
      pattern := "no_activity", patternDesc := "No activity recorded",
      consistencyScore := 0, lastDayPercentage := 0, dailyBreakdown := [] }
  else
    let acts := List.insertionSort (fun a b => a.date ≤ b.date) activities
    let activeDays := (acts.filter (fun a => a.commits > 0)).length
    let totalCommits : Nat := (acts.map (fun a => a.commits)).sum
    let totalAdditions := (acts.map (fun a => a.additions)).sum
    let totalDeletions := (acts.map (fun a => a.deletions)).sum
    let maxDailyCommits := acts.foldl (fun m a => max m a.commits) 0
    let totalDays : Int :=
      match window with
      | some (hs, he) => Int.tdiv (he - hs) 24 + 1
      | none =>
        Int.tdiv ((acts.getLast?.getD default).date
          - (acts.head?.getD default).date) 24 + 1
    let averagePerDay :=
      if 0 < totalDays then (totalCommits : ℚ) / (totalDays : ℚ) else 0
    let dailyBreakdown := acts.map (fun a =>
      { date := a.date, commits := a.commits, additions := a.additions,
        deletions := a.deletions,
        pct := if 0 < totalCommits
               then (a.commits : ℚ) / (totalCommits : ℚ) * 100 else 0
        : DayBreakdown })
    let lastDayPercentage :=
      if 0 < totalCommits then
        ((acts.getLast?.getD default).commits : ℚ) / (totalCommits : ℚ) * 100
      else 0
    determinePattern
      { totalDays := totalDays, activeDays := activeDays,
        totalCommits := totalCommits, totalAdditions := totalAdditions,
        totalDeletions := totalDeletions, averagePerDay := averagePerDay,
        maxDailyCommits := maxDailyCommits, pattern := "", patternDesc := "",
        consistencyScore := calculateConsistencyScore acts totalDays,
        lastDayPercentage := lastDayPercentage,
        dailyBreakdown := dailyBreakdown }

/-! ## EventRouter ingestion path (internal/webhook: `processCommit` and
`updateContributor`, with the store semantics of the SQL they execute:
`commits.sha UNIQUE` with `ON CONFLICT (sha) DO NOTHING`, and
`contributors UNIQUE(repository_id, email)` with the COALESCE upsert). -/

structure HeadCommit where
  sha : String
  message : List Char
  authorName : String
  authorEmail : String
  authorLogin : String
  timestamp : Int
deriving DecidableEq

structure CommitRow where
  repositoryId : Int
  sha : String
  message : List Char
  authorEmail : String
  authorName : String
  authorDate : Int
  committerDate : Int
  pushedAt : Int
  additions : Nat
  deletions : Nat
  isConventional : Bool
  conventionalType : List Char
  conventionalScope : List Char
  isBackdated : Bool
  backdateHours : Int
deriving DecidableEq

structure ContributorRow where
  repositoryId : Int
  githubLogin : Option String
  email : Option String
  name : Option String
  totalCommits : Nat
  firstCommitAt : Int
  lastCommitAt : Int
deriving DecidableEq

structure AlertRow where
  repositoryId : Int
  commitSha : Option String
  alertType : String
  severity : String
  title : String
  alertDescription : String
deriving DecidableEq

structure Database where
  commits : List CommitRow
  contributors : List ContributorRow
  alerts : List AlertRow
deriving DecidableEq

/-- `INSERT INTO commits ... ON CONFLICT (sha) DO NOTHING`. -/
def insertCommitRow (db : Database) (row : CommitRow) : Database :=
  if db.commits.any (fun r => r.sha == row.sha) then db
  else { db with commits := db.commits ++ [row] }

/-- SQL `COALESCE`: the first non-NULL argument. -/
def coalesce (a b : Option String) : Option String :=
  match a with
  | some v => some v
  | none => b

/-- The contributor upsert:
`INSERT INTO contributors (...) VALUES (..., 1, t, t)
ON CONFLICT (repository_id, email) DO UPDATE SET
github_login = COALESCE(EXCLUDED.github_login, contributors.github_login),
name = COALESCE(EXCLUDED.name, contributors.name),
total_commits = contributors.total_commits + 1, last_commit_at = t`. -/
def upsertContributor (db : Database) (repoId : Int)
    (login email name : Option String) (t : Int) : Database :=
  if db.contributors.any
      (fun r => r.repositoryId == repoId && r.email == email) then
    { db with contributors := db.contributors.map (fun r =>
        if r.repositoryId == repoId && r.email == email then
          { r with githubLogin := coalesce login r.githubLogin,
                   name := coalesce name r.name,
                   totalCommits := r.totalCommits + 1,
                   lastCommitAt := t }
        else r) }
  else
    { db with contributors := db.contributors
        ++ [{ repositoryId := repoId, githubLogin := login, email := email,
              name := name, totalCommits := 1, firstCommitAt := t,
              lastCommitAt := t }] }

/-- Embedding of `Handler.updateContributor`: the Go accessors
(`GetLogin`/`GetEmail`/`GetName`) always yield non-NULL strings — a nil
author field becomes the empty string — so every bind is `some _`. -/
def updateContributor (db : Database) (repoId : Int) (commit : HeadCommit)
    (receiveTime : Int) : Database :=
  upsertContributor db repoId (some commit.authorLogin)
    (some commit.authorEmail) (some commit.authorName) receiveTime

/-- Embedding of `Handler.processCommit` on its success path: insert the
commit fact idempotently on `sha`, raise a backdate alert when flagged, then
update the contributor aggregate unconditionally. The repository id is the
caller's lookup result. -/
def processCommit (cfg : DetectionConfig) (db : Database) (repoId : Int)
    (commit : HeadCommit) (receiveTime : Int) : Database :=
  let authorDate := commit.timestamp
  let backdateHours := Int.tdiv (receiveTime - authorDate) 3600
  let isBackdated := decide (backdateHours > cfg.backdateSuspiciousHours)
  let parsed := parseConventionalCommitGo commit.message
  let db1 := insertCommitRow db
    { repositoryId := repoId, sha := commit.sha, message := commit.message,
      authorEmail := commit.authorEmail, authorName := commit.authorName,
      authorDate := authorDate, committerDate := authorDate,
      pushedAt := receiveTime, additions := 0, deletions := 0,
      isConventional := parsed.1, conventionalType := parsed.2.1,
      conventionalScope := parsed.2.2, isBackdated := isBackdated,
      backdateHours := backdateHours }
  let db2 :=
    if isBackdated then
      { db1 with alerts := db1.alerts ++ [{
          repositoryId := repoId, commitSha := some commit.sha,
          alertType := if backdateHours > cfg.backdateCriticalHours
                       then "backdate_critical" else "backdate_suspicious",
          severity := if backdateHours > cfg.backdateCriticalHours
                      then "critical" else "warning",
          title := "Backdated commit detected",
          alertDescription :=
            "Commit author date is significantly older than push time" }] }
    else db1
  updateContributor db2 repoId commit receiveTime

end GitVigil

namespace GitVigil

theorem tdiv_nonpos_of_nonpos_of_nonneg {a b : Int} (ha : a ≤ 0) (hb : 0 ≤ b) :
    a.tdiv b ≤ 0 := by
  have h := Int.tdiv_nonneg (by omega : (0:Int) ≤ -a) hb
  rw [Int.neg_tdiv] at h
  omega

/-- C4: the backdate detector truncates `receivedAt − authorTime` to whole
hours, flags suspicious exactly above the suspicious threshold and critical
exactly above the critical threshold, and never flags a negative difference
when the thresholds are nonnegative. -/
theorem analyzeBackdate_correct (cfg : DetectionConfig) (a p : Int)
    (hs : 0 ≤ cfg.backdateSuspiciousHours) (hc : 0 ≤ cfg.backdateCriticalHours) :
    (AnalyzeBackdate cfg a p).differenceHours = Int.tdiv (p - a) 3600
    ∧ ((AnalyzeBackdate cfg a p).isSuspicious = true ↔
        cfg.backdateSuspiciousHours < Int.tdiv (p - a) 3600)
    ∧ ((AnalyzeBackdate cfg a p).isCritical = true ↔
        cfg.backdateCriticalHours < Int.tdiv (p - a) 3600)
    ∧ (p - a < 0 →
        (AnalyzeBackdate cfg a p).isSuspicious = false
        ∧ (AnalyzeBackdate cfg a p).isCritical = false) := by
  refine ⟨rfl, by simp [AnalyzeBackdate], by simp [AnalyzeBackdate], ?_⟩
  intro hneg
  have hd : Int.tdiv (p - a) 3600 ≤ 0 := by
    have := tdiv_nonpos_of_nonpos_of_nonneg (le_of_lt hneg) (by norm_num : (0:Int) ≤ 3600)
    exact this
  constructor
  · simp only [AnalyzeBackdate, decide_eq_false_iff_not, not_lt]
    exact le_trans hd hs
  · simp only [AnalyzeBackdate, decide_eq_false_iff_not, not_lt]
    exact le_trans hd hc

/-- Witness for C4: a 25-hour difference with thresholds 24/72 is suspicious
but not critical. -/
theorem analyzeBackdate_correct_witness :
    (AnalyzeBackdate ⟨24, 72⟩ 0 90000).isSuspicious = true
    ∧ (AnalyzeBackdate ⟨24, 72⟩ 0 90000).isCritical = false := by
  have h := analyzeBackdate_correct ⟨24, 72⟩ 0 90000 (by decide) (by decide)
  refine ⟨h.2.1.mpr (by decide), ?_⟩
  have h2 := h.2.2.1
  by_cases hb : (AnalyzeBackdate ⟨24, 72⟩ 0 90000).isCritical = true
  · exact absurd (h2.mp hb) (by decide)
  · simpa using hb

/-- C3: the scorecard overall score is the truncated integer mean of the five
check scores, and the overall status is critical whenever a critical-severity
alert exists, otherwise healthy at score ≥ 80, warning at score ≥ 50, and
critical below 50. -/
theorem scorecard_overall_correct (s1 s2 s3 s4 s5 : Nat) (checks : List CheckResult)
    (sev : Severity → Nat) (hmap : checks.map (fun c => c.score) = [s1, s2, s3, s4, s5]) :
    calculateOverallScore checks = (s1 + s2 + s3 + s4 + s5) / 5
    ∧ (0 < sev Severity.critical →
        getOverallStatus (calculateOverallScore checks) sev = "critical")
    ∧ (sev Severity.critical = 0 → 80 ≤ calculateOverallScore checks →
        getOverallStatus (calculateOverallScore checks) sev = "healthy")
    ∧ (sev Severity.critical = 0 → 50 ≤ calculateOverallScore checks →
        calculateOverallScore checks < 80 →
        getOverallStatus (calculateOverallScore checks) sev = "warning")
    ∧ (sev Severity.critical = 0 → calculateOverallScore checks < 50 →
        getOverallStatus (calculateOverallScore checks) sev = "critical") := by
  have hlen : checks.length = 5 := by
    have := congrArg List.length hmap
    simpa using this
  have hsum : (checks.map (fun c => c.score)).sum = s1 + s2 + s3 + s4 + s5 := by
    rw [hmap]; simp [List.sum_cons]; ring
  have hscore : calculateOverallScore checks = (s1 + s2 + s3 + s4 + s5) / 5 := by
    simp only [calculateOverallScore, hlen, hsum]
    norm_num
  refine ⟨hscore, ?_, ?_, ?_, ?_⟩
  · intro hcrit
    simp [getOverallStatus, hcrit]
  · intro hcrit hge
    simp [getOverallStatus, hcrit, hge]
  · intro hcrit hge hlt
    have h80 : ¬ (80 ≤ calculateOverallScore checks) := by omega
    simp [getOverallStatus, hcrit, h80, hge]
  · intro hcrit hlt
    have h80 : ¬ (80 ≤ calculateOverallScore checks) := by omega
    have h50 : ¬ (50 ≤ calculateOverallScore checks) := by omega
    simp [getOverallStatus, hcrit, h80, h50]

/-- Witness for C3: five concrete checks with mean 95 and one critical alert
still yield an overall status of critical. -/
theorem scorecard_overall_correct_witness :
    calculateOverallScore
      [⟨"a", "pass", 100, ""⟩, ⟨"b", "pass", 100, ""⟩, ⟨"c", "pass", 100, ""⟩,
       ⟨"d", "warn", 75, ""⟩, ⟨"e", "pass", 100, ""⟩] = 95
    ∧ getOverallStatus
        (calculateOverallScore
          [⟨"a", "pass", 100, ""⟩, ⟨"b", "pass", 100, ""⟩, ⟨"c", "pass", 100, ""⟩,
           ⟨"d", "warn", 75, ""⟩, ⟨"e", "pass", 100, ""⟩])
        (fun s => if s = Severity.critical then 1 else 0) = "critical" := by
  have h := scorecard_overall_correct 100 100 100 75 100
    [⟨"a", "pass", 100, ""⟩, ⟨"b", "pass", 100, ""⟩, ⟨"c", "pass", 100, ""⟩,
     ⟨"d", "warn", 75, ""⟩, ⟨"e", "pass", 100, ""⟩]
    (fun s => if s = Severity.critical then 1 else 0) (by decide)
  exact ⟨by rw [h.1], h.2.1 (by decide)⟩

theorem wordChar_ne {c : Char} (h : isWordChar c = true) :
    c ≠ ':' ∧ c ≠ '(' ∧ c ≠ ')' ∧ c ≠ '\n' ∧ c ≠ '!' := by
  refine ⟨?_, ?_, ?_, ?_, ?_⟩ <;> rintro rfl <;> revert h <;> decide

theorem takeWhile_all {p : Char → Bool} (l : List Char) (h : ∀ x ∈ l, p x = true) :
    l.takeWhile p = l := by
  induction l with
  | nil => rfl
  | cons a as ih =>
    simp [List.takeWhile_cons, h a (by simp), ih (fun x hx => h x (by simp [hx]))]

theorem takeWhile_append_all {p : Char → Bool} (l r : List Char)
    (hl : ∀ x ∈ l, p x = true) :
    (l ++ r).takeWhile p = l ++ r.takeWhile p := by
  induction l with
  | nil => simp
  | cons a as ih =>
    have ha := hl a (by simp)
    simp [List.takeWhile_cons, ha, ih (fun x hx => hl x (by simp [hx]))]

theorem dropWhile_append_all {p : Char → Bool} (l r : List Char)
    (hl : ∀ x ∈ l, p x = true) :
    (l ++ r).dropWhile p = r.dropWhile p := by
  induction l with
  | nil => simp
  | cons a as ih =>
    have ha := hl a (by simp)
    simp [List.dropWhile_cons, ha, ih (fun x hx => hl x (by simp [hx]))]

theorem findColonIdx_append (t r : List Char) (ht : ∀ x ∈ t, isWordChar x = true) :
    findColonIdx (t ++ ':' :: r) = some t.length := by
  induction t with
  | nil => simp [findColonIdx]
  | cons a as ih =>
    have h1 := (wordChar_ne (ht a (by simp))).1
    have h4 := (wordChar_ne (ht a (by simp))).2.2.2.1
    simp [findColonIdx, h1, h4, ih (fun x hx => ht x (by simp [hx]))]

theorem indexOfChar_eq_none (s : List Char) (c : Char) (h : ∀ x ∈ s, x ≠ c) :
    indexOfChar s c = none := by
  induction s with
  | nil => rfl
  | cons a as ih =>
    have ha := h a (by simp)
    simp [indexOfChar, ha, ih (fun x hx => h x (by simp [hx]))]

/-- Evaluation of the ingestion-path parser on a message whose first-line
prefix before the colon is a pure word-character run. -/
theorem parseConventionalCommitGo_plain (t d : List Char)
    (ht : ∀ x ∈ t, isWordChar x = true) (htne : t ≠ []) :
    parseConventionalCommitGo (t ++ ':' :: d)
      = if t ∈ validTypes then (true, t, []) else (false, [], []) := by
  have hcolon := findColonIdx_append t d ht
  have hparen : indexOfChar t '(' = none :=
    indexOfChar_eq_none t '(' (fun x hx => (wordChar_ne (ht x hx)).2.1)
  have hne0 : t.length ≠ 0 := by simpa using htne
  have hemp : (t ++ ':' :: d).isEmpty = false := by
    cases t with
    | nil => simp
    | cons a as => rfl
  have htake : (t ++ ':' :: d).take t.length = t := List.take_left t (':' :: d)
  unfold parseConventionalCommitGo
  rw [hemp]
  simp only [Bool.false_eq_true, if_false, hcolon, htake, hne0, hparen]

/-- Evaluation of the regex tail on a plain (scopeless, bangless) message. -/
theorem matchConventionalLine_plain (t d : List Char)
    (ht : ∀ x ∈ t, isWordChar x = true) (htne : t ≠ []) (hd : d ≠ []) :
    ∃ desc, matchConventionalLine (t ++ ':' :: d) = some (t, [], false, desc) := by
  have h1 : (t ++ ':' :: d).takeWhile isWordChar = t := by
    rw [takeWhile_append_all t (':' :: d) ht]
    simp [List.takeWhile_cons, isWordChar]
  have h2 : (t ++ ':' :: d).dropWhile isWordChar = ':' :: d := by
    rw [dropWhile_append_all t (':' :: d) ht]
    simp [List.dropWhile_cons, isWordChar]
  have hdesc : ∃ x, descAfterColon d = some x := by
    unfold descAfterColon
    have : d.isEmpty = false := by simpa using hd
    rw [this]
    simp only [Bool.false_eq_true, if_false]
    split <;> exact ⟨_, rfl⟩
  obtain ⟨x, hx⟩ := hdesc
  refine ⟨x, ?_⟩
  have hte : t.isEmpty = false := by simpa using htne
  unfold matchConventionalLine
  simp only [h1, h2, hte, Bool.false_eq_true, if_false]
  unfold matchAfterType
  dsimp only
  rw [if_neg (by decide : ¬ (':' : Char) = '(')]
  unfold matchBangColon
  dsimp only
  rw [if_neg (by decide : ¬ (':' : Char) = '!'), if_pos rfl, hx]
  rfl

/-- Evaluation of the full analysis parser on a plain message. -/
theorem parseConventionalCommit_plain (t d : List Char)
    (ht : ∀ x ∈ t, isWordChar x = true) (htne : t ≠ []) (hd : d ≠ [])
    (hdn : '\n' ∉ d) :
    ∃ desc, ParseConventionalCommit (t ++ ':' :: d)
      = if t.map Char.toLower ∈ validTypes
        then ⟨t.map Char.toLower, [], desc, false, true⟩
        else ⟨[], [], [], false, false⟩ := by
  have hline : (t ++ ':' :: d).takeWhile (fun c => c != '\n') = t ++ ':' :: d := by
    refine takeWhile_all (t ++ ':' :: d) ?_
    intro x hx
    rcases List.mem_append.mp hx with h | h
    · simpa using (wordChar_ne (ht x h)).2.2.2.1
    · rcases List.mem_cons.mp h with rfl | h
      · decide
      · simp only [bne_iff_ne, ne_eq]
        intro hh
        exact hdn (hh ▸ h)
  obtain ⟨x, hx⟩ := matchConventionalLine_plain t d ht htne hd
  have hemp : (t ++ ':' :: d).isEmpty = false := by
    cases t with
    | nil => exact absurd rfl htne
    | cons a as => rfl
  refine ⟨x, ?_⟩
  unfold ParseConventionalCommit
  rw [hemp]
  simp only [Bool.false_eq_true, if_false, hline, hx]

theorem determinePattern_activeDays (a : VolumeAnalysis) :
    (determinePattern a).activeDays = a.activeDays := by
  unfold determinePattern
  repeat' split
  all_goals rfl

theorem determinePattern_totalCommits (a : VolumeAnalysis) :
    (determinePattern a).totalCommits = a.totalCommits := by
  unfold determinePattern
  repeat' split
  all_goals rfl

theorem determinePattern_totalDays (a : VolumeAnalysis) :
    (determinePattern a).totalDays = a.totalDays := by
  unfold determinePattern
  repeat' split
  all_goals rfl

theorem determinePattern_dailyBreakdown (a : VolumeAnalysis) :
    (determinePattern a).dailyBreakdown = a.dailyBreakdown := by
  unfold determinePattern
  repeat' split
  all_goals rfl

theorem le_tdiv24_of_mul_le {k d : Int} (hk : 0 ≤ k) (h : 24 * k ≤ d) :
    k ≤ Int.tdiv d 24 := by
  have hd : 0 ≤ d := le_trans (by nlinarith) h
  rw [Int.tdiv_eq_ediv hd (by norm_num)]
  exact (Int.le_ediv_iff_mul_le (by norm_num)).mpr (by linarith)

/-- Strictly increasing day-aligned date chains spread by at least 24 hours
per step. -/
theorem spread_ge (x : DailyActivity) (l : List DailyActivity)
    (hsort : (x :: l).Pairwise (fun a b => a.date ≤ b.date))
    (hdist : (x :: l).Pairwise (fun a b => a.date ≠ b.date))
    (halign : ∀ a ∈ x :: l, (24 : Int) ∣ a.date) :
    24 * (l.length : Int) ≤ ((x :: l).getLast (by simp)).date - x.date := by
  induction l generalizing x with
  | nil => simp
  | cons y ys ih =>
    have hxy_le : x.date ≤ y.date := (List.pairwise_cons.mp hsort).1 y (by simp)
    have hxy_ne : x.date ≠ y.date := (List.pairwise_cons.mp hdist).1 y (by simp)
    have hdvd : (24 : Int) ∣ y.date - x.date :=
      dvd_sub (halign y (by simp)) (halign x (by simp))
    have hstep : (24 : Int) ≤ y.date - x.date := by
      refine Int.le_of_dvd (by omega) hdvd
    have ihy := ih y (List.pairwise_cons.mp hsort).2 (List.pairwise_cons.mp hdist).2
      (fun a ha => halign a (by simp [ha]))
    have hlast : ((x :: y :: ys).getLast (by simp))
        = ((y :: ys).getLast (by simp)) := List.getLast_cons (by simp)
    rw [hlast]
    push_cast [List.length_cons]
    omega

/-- C7 (amended): the daily-breakdown commit counts always sum to
`totalCommits`; and `activeDays ≤ totalDays` holds provided the buckets carry
pairwise-distinct day-aligned dates and any explicit window contains all
bucket dates. (Unamended, the inequality fails when the explicit window is
shorter than the activity span.) -/
theorem volume_invariants (activities : List DailyActivity)
    (window : Option (Int × Int)) :
    ((AnalyzeVolume activities window).dailyBreakdown.map
        (fun b => b.commits)).sum
      = (AnalyzeVolume activities window).totalCommits
    ∧ (activities.Pairwise (fun a b => a.date ≠ b.date) →
       (∀ a ∈ activities, (24 : Int) ∣ a.date) →
       (∀ hs he, window = some (hs, he) →
         ∀ a ∈ activities, hs ≤ a.date ∧ a.date ≤ he) →
       ((AnalyzeVolume activities window).activeDays : Int)
         ≤ (AnalyzeVolume activities window).totalDays) := by
  by_cases hne : activities = []
  · subst hne
    refine ⟨rfl, fun _ _ _ => ?_⟩
    simp [AnalyzeVolume]
  · unfold AnalyzeVolume
    rw [if_neg hne]
    dsimp only
    rw [determinePattern_activeDays, determinePattern_totalCommits,
        determinePattern_totalDays, determinePattern_dailyBreakdown]
    dsimp only
    constructor
    · rw [List.map_map]
      rfl
    · intro hdist halign hwin
      have hperm : (List.insertionSort (fun a b => a.date ≤ b.date) activities).Perm
          activities := List.perm_insertionSort _ activities
      have hsorted : (List.insertionSort (fun a b => a.date ≤ b.date)
          activities).Pairwise (fun a b => a.date ≤ b.date) := by
        haveI : IsTotal DailyActivity (fun a b => a.date ≤ b.date) :=
          ⟨fun a b => le_total a.date b.date⟩
        haveI : IsTrans DailyActivity (fun a b => a.date ≤ b.date) :=
          ⟨fun a b c hab hbc => le_trans hab hbc⟩
        exact List.sorted_insertionSort _ activities
      have hdist2 : (List.insertionSort (fun a b => a.date ≤ b.date)
          activities).Pairwise (fun a b => a.date ≠ b.date) :=
        (List.Perm.pairwise_iff (fun h => Ne.symm h) hperm).mpr hdist
      have halign2 : ∀ a ∈ List.insertionSort (fun a b => a.date ≤ b.date)
          activities, (24 : Int) ∣ a.date := fun a ha => halign a (hperm.subset ha)
      have hactsne : List.insertionSort (fun a b => a.date ≤ b.date)
          activities ≠ [] := by
        intro h
        rw [h] at hperm
        exact hne hperm.symm.eq_nil
      obtain ⟨x, xs, hx⟩ := List.exists_cons_of_ne_nil hactsne
      rw [hx]
      have hcount : (((x :: xs).filter (fun a => a.commits > 0)).length : Int)
          ≤ ((x :: xs).length : Int) := by
        exact_mod_cast List.length_filter_le _ _
      have hspread := spread_ge x xs (hx ▸ hsorted) (hx ▸ hdist2)
        (fun a ha => halign2 a (hx ▸ ha))
      cases window with
      | none =>
        dsimp only
        rw [List.getLast?_eq_getLast (x :: xs) (by simp), List.head?_cons]
        dsimp only [Option.getD_some]
        have hk := le_tdiv24_of_mul_le (Int.ofNat_nonneg xs.length) hspread
        simp only [List.length_cons] at hcount
        push_cast at hcount ⊢
        omega
      | some hshe =>
        obtain ⟨hs, he⟩ := hshe
        dsimp only
        have hb := hwin hs he rfl
        have hxmem : x ∈ activities := hperm.subset (by rw [hx]; simp)
        have hlmem : (x :: xs).getLast (by simp) ∈ activities := by
          refine hperm.subset ?_
          rw [hx]
          exact List.getLast_mem _
        have hx1 := (hb x hxmem).1
        have hl2 := (hb ((x :: xs).getLast (by simp)) hlmem).2
        have hmul : 24 * (xs.length : Int) ≤ he - hs := by omega
        have hk := le_tdiv24_of_mul_le (Int.ofNat_nonneg xs.length) hmul
        simp only [List.length_cons] at hcount
        push_cast at hcount ⊢
        omega

/-- Witness for C7 (amended): two day-aligned buckets with no explicit
window satisfy both invariants. -/
theorem volume_invariants_witness :
    ((AnalyzeVolume [⟨0, 1, 0, 0⟩, ⟨24, 2, 0, 0⟩] none).dailyBreakdown.map
        (fun b => b.commits)).sum
      = (AnalyzeVolume [⟨0, 1, 0, 0⟩, ⟨24, 2, 0, 0⟩] none).totalCommits
    ∧ ((AnalyzeVolume [⟨0, 1, 0, 0⟩, ⟨24, 2, 0, 0⟩] none).activeDays : Int)
        ≤ (AnalyzeVolume [⟨0, 1, 0, 0⟩, ⟨24, 2, 0, 0⟩] none).totalDays := by
  have h := volume_invariants [⟨0, 1, 0, 0⟩, ⟨24, 2, 0, 0⟩] none
  exact ⟨h.1, h.2 (by decide) (by decide) (fun hs he hcontra => nomatch hcontra)⟩

/-- C7 counterexample: with an explicit window shorter than the activity
span, `activeDays` exceeds `totalDays`. -/
theorem volume_activeDays_counterexample :
    (AnalyzeVolume [⟨0, 1, 0, 0⟩, ⟨120, 1, 0, 0⟩] (some (1, 1))).activeDays = 2
    ∧ (AnalyzeVolume [⟨0, 1, 0, 0⟩, ⟨120, 1, 0, 0⟩] (some (1, 1))).totalDays = 1
    ∧ ¬ (((AnalyzeVolume [⟨0, 1, 0, 0⟩, ⟨120, 1, 0, 0⟩]
          (some (1, 1))).activeDays : Int)
        ≤ (AnalyzeVolume [⟨0, 1, 0, 0⟩, ⟨120, 1, 0, 0⟩] (some (1, 1))).totalDays) := by
  have h1 : (AnalyzeVolume [⟨0, 1, 0, 0⟩, ⟨120, 1, 0, 0⟩]
      (some (1, 1))).activeDays = 2 := by
    unfold AnalyzeVolume
    rw [if_neg (by decide)]
    dsimp only
    rw [determinePattern_activeDays]
    decide
  have h2 : (AnalyzeVolume [⟨0, 1, 0, 0⟩, ⟨120, 1, 0, 0⟩]
      (some (1, 1))).totalDays = 1 := by
    unfold AnalyzeVolume
    rw [if_neg (by decide)]
    dsimp only
    rw [determinePattern_totalDays]
    decide
  refine ⟨h1, h2, ?_⟩
  rw [h1, h2]
  decide

/-- C8: refuted — with more active buckets than window days the consistency
score exceeds 100: two single-commit buckets over a 1-day window score 150. -/
theorem consistencyScore_counterexample :
    calculateConsistencyScore [⟨0, 1, 0, 0⟩, ⟨0, 1, 0, 0⟩] 1 = 150
    ∧ ¬ (calculateConsistencyScore [⟨0, 1, 0, 0⟩, ⟨0, 1, 0, 0⟩] 1 ≤ 100) := by
  have h : calculateConsistencyScore [⟨0, 1, 0, 0⟩, ⟨0, 1, 0, 0⟩] 1 = 150 := by
    norm_num [calculateConsistencyScore, List.filter, List.cons_ne_nil]
  refine ⟨h, ?_⟩
  rw [h]
  norm_num

/-- C8 (amended): the consistency score lies in `[0, 100]` whenever the
bucket list is nonempty, the day count is positive and at least as large as
the active-day count, and some bucket has a positive commit count (so the
mean is nonzero; with an all-zero mean the source divides by zero, and with
more active days than total days the score exceeds 100). -/
theorem consistencyScore_bounded (activities : List DailyActivity)
    (totalDays : Int) (hne : activities ≠ []) (hpos : 0 < totalDays)
    (hact : (((activities.filter (fun a => a.commits > 0)).length : Int))
      ≤ totalDays)
    (hsum : 0 < (activities.map (fun a => (a.commits : ℚ))).sum) :
    0 ≤ calculateConsistencyScore activities totalDays
    ∧ calculateConsistencyScore activities totalDays ≤ 100 := by
  unfold calculateConsistencyScore
  rw [if_neg (by push_neg; exact ⟨ne_of_gt hpos, hne⟩)]
  dsimp only
  have hlen : (0 : ℚ) < (activities.length : ℚ) := by
    have : 0 < activities.length := List.length_pos.mpr hne
    exact_mod_cast this
  have htd : (0 : ℚ) < ((totalDays : Int) : ℚ) := by exact_mod_cast hpos
  have hmean : 0 < (activities.map (fun a => (a.commits : ℚ))).sum
      / (activities.length : ℚ) := div_pos hsum hlen
  have hvar : 0 ≤ (activities.map
      (fun a => ((a.commits : ℚ)
        - (activities.map (fun a => (a.commits : ℚ))).sum
          / (activities.length : ℚ)) ^ 2)).sum / (activities.length : ℚ) := by
    refine div_nonneg (List.sum_nonneg ?_) (le_of_lt hlen)
    intro x hx
    obtain ⟨a, _, rfl⟩ := List.mem_map.mp hx
    exact sq_nonneg _
  have hq : 0 ≤ (activities.map
      (fun a => ((a.commits : ℚ)
        - (activities.map (fun a => (a.commits : ℚ))).sum
          / (activities.length : ℚ)) ^ 2)).sum / (activities.length : ℚ)
      / ((activities.map (fun a => (a.commits : ℚ))).sum
        / (activities.length : ℚ)) := div_nonneg hvar (le_of_lt hmean)
  have hvs_pos : 0 < (100 : ℚ) / (1 + (activities.map
      (fun a => ((a.commits : ℚ)
        - (activities.map (fun a => (a.commits : ℚ))).sum
          / (activities.length : ℚ)) ^ 2)).sum / (activities.length : ℚ)
      / ((activities.map (fun a => (a.commits : ℚ))).sum
        / (activities.length : ℚ))) := div_pos (by norm_num) (by linarith)
  have hvs_le : (100 : ℚ) / (1 + (activities.map
      (fun a => ((a.commits : ℚ)
        - (activities.map (fun a => (a.commits : ℚ))).sum
          / (activities.length : ℚ)) ^ 2)).sum / (activities.length : ℚ)
      / ((activities.map (fun a => (a.commits : ℚ))).sum
        / (activities.length : ℚ))) ≤ 100 := by
    rw [div_le_iff₀ (by linarith)]
    linarith
  have hraten : (0 : ℚ)
      ≤ ((activities.filter (fun a => a.commits > 0)).length : ℚ)
        / ((totalDays : Int) : ℚ) * 100 := by
    have h1 : (0 : ℚ) ≤ ((activities.filter
        (fun a => a.commits > 0)).length : ℚ) := by positivity
    have := div_nonneg h1 (le_of_lt htd)
    linarith
  have hratele : ((activities.filter (fun a => a.commits > 0)).length : ℚ)
      / ((totalDays : Int) : ℚ) * 100 ≤ 100 := by
    have h1 : (((activities.filter (fun a => a.commits > 0)).length : Int) : ℚ)
        ≤ ((totalDays : Int) : ℚ) := by exact_mod_cast hact
    have h2 : ((activities.filter (fun a => a.commits > 0)).length : ℚ)
        / ((totalDays : Int) : ℚ) ≤ 1 := by
      rw [div_le_one htd]
      exact_mod_cast h1
    linarith
  constructor
  · linarith
  · linarith

/-- Witness for C8 (amended): one single-commit bucket over one day scores
exactly within the bounds. -/
theorem consistencyScore_bounded_witness :
    0 ≤ calculateConsistencyScore [⟨0, 1, 0, 0⟩] 1
    ∧ calculateConsistencyScore [⟨0, 1, 0, 0⟩] 1 ≤ 100 := by
  refine consistencyScore_bounded [⟨0, 1, 0, 0⟩] 1 (by decide) (by decide)
    ?_ ?_
  · decide
  · norm_num [List.map, List.sum]

theorem giniWeighted_replicate (v : ℚ) (n i : Nat) :
    giniWeighted i (List.replicate n v)
      = v * ((n : ℚ) * (i : ℚ)) + v * ((n : ℚ) * ((n : ℚ) + 1)) / 2 := by
  induction n generalizing i with
  | zero => simp [giniWeighted]
  | succ m ih =>
    rw [List.replicate_succ]
    show ((i : ℚ) + 1) * v + giniWeighted (i + 1) (List.replicate m v) = _
    rw [ih (i + 1)]
    push_cast
    ring

/-- C5: the Gini coefficient is computed by the standard discrete formula over
the ascending-sorted shares, and every list of n ≥ 2 equal positive shares has
Gini coefficient exactly 0 (so certainly within 1e-9 of 0). -/
theorem gini_formula_and_equal_shares :
    (∀ l : List ℚ, l ≠ [] → l.sum ≠ 0 →
      calculateGini l
        = 2 * giniWeighted 0 (l.mergeSort (fun a b => a ≤ b))
            / ((l.length : ℚ) * l.sum)
          - ((l.length : ℚ) + 1) / (l.length : ℚ))
    ∧ (∀ (n : Nat) (v : ℚ), 2 ≤ n → 0 < v →
        calculateGini (List.replicate n v) = 0) := by
  have hsortsum : ∀ l : List ℚ,
      (l.mergeSort (fun a b => a ≤ b)).sum = l.sum :=
    fun l => List.Perm.sum_eq (List.mergeSort_perm l _)
  have hformula : ∀ l : List ℚ, l ≠ [] → l.sum ≠ 0 →
      calculateGini l
        = 2 * giniWeighted 0 (l.mergeSort (fun a b => a ≤ b))
            / ((l.length : ℚ) * l.sum)
          - ((l.length : ℚ) + 1) / (l.length : ℚ) := by
    intro l hne hsum
    have hlen : l.length ≠ 0 := by simpa using hne
    unfold calculateGini
    rw [if_neg hlen]
    dsimp only
    rw [hsortsum l, if_neg hsum]
  refine ⟨hformula, ?_⟩
  intro n v hn hv
  have hne : List.replicate n v ≠ [] := by
    cases n with
    | zero => omega
    | succ m => simp [List.replicate_succ]
  have hsum : (List.replicate n v).sum = (n : ℚ) * v := by
    rw [List.sum_replicate, nsmul_eq_mul]
  have hn0 : (n : ℚ) ≠ 0 := by
    have : (0 : ℚ) < (n : ℚ) := by exact_mod_cast Nat.lt_of_lt_of_le (by norm_num) hn
    exact ne_of_gt this
  have hsumne : (List.replicate n v).sum ≠ 0 := by
    rw [hsum]
    exact mul_ne_zero hn0 (ne_of_gt hv)
  have hsort : (List.replicate n v).mergeSort (fun a b => a ≤ b)
      = List.replicate n v :=
    List.perm_replicate.mp (List.mergeSort_perm _ _)
  rw [hformula _ hne hsumne, hsort, giniWeighted_replicate, hsum,
    List.length_replicate]
  field_simp
  ring

/-- Witness for C5: the Gini coefficient of `[25, 25, 25, 25]` is 0. -/
theorem gini_formula_and_equal_shares_witness :
    calculateGini [25, 25, 25, 25] = 0 := by
  have h := gini_formula_and_equal_shares.2 4 25 (by norm_num) (by norm_num)
  simpa using h

theorem validTypes_lower (t : List Char) (h : t ∈ validTypes) :
    t.map Char.toLower = t ∧ t ≠ [] ∧ ∀ x ∈ t, isWordChar x = true := by
  simp only [validTypes, List.mem_cons, List.not_mem_nil, or_false] at h
  rcases h with rfl | rfl | rfl | rfl | rfl | rfl | rfl | rfl | rfl | rfl | rfl <;>
    exact ⟨by decide, by decide, by decide⟩

/-- C6: refuted — the message `FEAT: x` is classified conventional by the
regex-based analysis parser but rejected by the ingestion-path parser, which
matches the type token case-sensitively. -/
theorem conventionalCase_counterexample :
    (ParseConventionalCommit ['F', 'E', 'A', 'T', ':', ' ', 'x']).isValid = true
    ∧ (parseConventionalCommitGo ['F', 'E', 'A', 'T', ':', ' ', 'x']).1 = false := by
  decide

/-- C6 (amended): on messages of the form `t: d` (word-character type token,
nonempty newline-free remainder) the analysis parser matches the type token
case-insensitively — it accepts exactly the tokens whose lower-casing is in
the vocabulary and records the lower-cased type — while the ingestion-path
parser matches case-sensitively, accepting exactly the literal vocabulary
words. -/
theorem conventionalCase_insensitivity (t d : List Char)
    (ht : ∀ x ∈ t, isWordChar x = true) (htne : t ≠ []) (hd : d ≠ [])
    (hdn : '\n' ∉ d) :
    ((ParseConventionalCommit (t ++ ':' :: d)).isValid = true
      ↔ t.map Char.toLower ∈ validTypes)
    ∧ (t.map Char.toLower ∈ validTypes →
        (ParseConventionalCommit (t ++ ':' :: d)).typ = t.map Char.toLower)
    ∧ ((parseConventionalCommitGo (t ++ ':' :: d)).1 = true ↔ t ∈ validTypes) := by
  obtain ⟨x, hp⟩ := parseConventionalCommit_plain t d ht htne hd hdn
  have hg := parseConventionalCommitGo_plain t d ht htne
  refine ⟨?_, ?_, ?_⟩
  · rw [hp]; split <;> simp_all
  · intro hv; rw [hp, if_pos hv]
  · rw [hg]; split <;> simp_all

/-- Witness for C6 (amended): `FEAT:x` is accepted (as `feat`) by the
analysis parser and rejected by the ingestion parser. -/
theorem conventionalCase_insensitivity_witness :
    (ParseConventionalCommit (['F', 'E', 'A', 'T'] ++ ':' :: ['x'])).isValid = true
    ∧ (parseConventionalCommitGo (['F', 'E', 'A', 'T'] ++ ':' :: ['x'])).1 = false := by
  have h := conventionalCase_insensitivity ['F', 'E', 'A', 'T'] ['x']
    (by decide) (by decide) (by decide) (by decide)
  refine ⟨h.1.mpr (by decide), ?_⟩
  by_cases hb : (parseConventionalCommitGo (['F', 'E', 'A', 'T'] ++ ':' :: ['x'])).1 = true
  · exact absurd (h.2.2.mp hb) (by decide)
  · simpa using hb

/-- C10: refuted — the two parsers disagree on `feat:`: the ingestion-path
parser accepts it (empty description allowed) while the regex parser requires
at least one character after the colon and rejects it. -/
theorem parsers_disagree_counterexample :
    (parseConventionalCommitGo ['f', 'e', 'a', 't', ':']).1 = true
    ∧ (ParseConventionalCommit ['f', 'e', 'a', 't', ':']).isValid = false := by
  decide

/-- C10 (amended): the two parsers agree on canonical plain messages `t: d`
with a literal vocabulary type `t` and a nonempty newline-free remainder:
both classify them conventional with type `t` and empty scope. -/
theorem parsers_agree_on_plain (t d : List Char) (hv : t ∈ validTypes)
    (hd : d ≠ []) (hdn : '\n' ∉ d) :
    ((ParseConventionalCommit (t ++ ':' :: d)).isValid = true
      ∧ (ParseConventionalCommit (t ++ ':' :: d)).typ = t
      ∧ (ParseConventionalCommit (t ++ ':' :: d)).scope = [])
    ∧ ((parseConventionalCommitGo (t ++ ':' :: d)).1 = true
      ∧ (parseConventionalCommitGo (t ++ ':' :: d)).2.1 = t
      ∧ (parseConventionalCommitGo (t ++ ':' :: d)).2.2 = []) := by
  obtain ⟨hlow, htne, ht⟩ := validTypes_lower t hv
  obtain ⟨x, hp⟩ := parseConventionalCommit_plain t d ht htne hd hdn
  have hg := parseConventionalCommitGo_plain t d ht htne
  have hv2 : t.map Char.toLower ∈ validTypes := by rw [hlow]; exact hv
  rw [hp, if_pos hv2, hg, if_pos hv]
  exact ⟨⟨rfl, hlow, rfl⟩, rfl, rfl, rfl⟩

/-- Witness for C10 (amended): both parsers accept `fix:y` with type `fix`
and empty scope. -/
theorem parsers_agree_on_plain_witness :
    (ParseConventionalCommit (['f', 'i', 'x'] ++ ':' :: ['y'])).isValid = true
    ∧ (parseConventionalCommitGo (['f', 'i', 'x'] ++ ':' :: ['y'])).2.1
        = ['f', 'i', 'x'] := by
  have h := parsers_agree_on_plain ['f', 'i', 'x'] ['y']
    (by decide) (by decide) (by decide)
  exact ⟨h.1.1, h.2.2.1⟩

/-- C2: refuted by the code — delivering the same commit twice leaves exactly
one commit fact (the `sha` insert is a conflict no-op) but increments the
contributor's `total_commits` twice, because `updateContributor` runs
unconditionally even when the commit insert did nothing. -/
theorem duplicate_commit_double_counts :
    ((processCommit ⟨24, 72⟩
        (processCommit ⟨24, 72⟩ ⟨[], [], []⟩ 1
          ⟨"abc123", "fix: bug".data, "Alice", "alice@example.com", "alice", 0⟩ 0)
        1 ⟨"abc123", "fix: bug".data, "Alice", "alice@example.com", "alice", 0⟩
        0).commits.length = 1)
    ∧ (((processCommit ⟨24, 72⟩
        (processCommit ⟨24, 72⟩ ⟨[], [], []⟩ 1
          ⟨"abc123", "fix: bug".data, "Alice", "alice@example.com", "alice", 0⟩ 0)
        1 ⟨"abc123", "fix: bug".data, "Alice", "alice@example.com", "alice", 0⟩
        0).contributors.map (fun r => r.totalCommits)) = [2]) := by
  decide

/-- C9: refuted by the code — a stored non-empty login and name are
overwritten by an empty incoming login and name: `COALESCE` only skips SQL
NULL, and the ingestion path always binds non-NULL (possibly empty) strings,
so the empty string wins over the stored value. -/
theorem contributor_empty_overwrites_nonempty :
    ((updateContributor
        ⟨[], [⟨1, some "alice", some "alice@example.com", some "Alice", 3, 0, 0⟩], []⟩
        1 ⟨"def456", [], "", "alice@example.com", "", 5⟩ 5).contributors.map
      (fun r => (r.githubLogin, r.name, r.totalCommits)))
      = [(some "", some "", 4)] := by
  decide

/-- C1: refuted — on a signature mismatch the verifier's debug output
(`fmt.Printf("DEBUG: expected=%x received=%x\n", ...)` in the source) contains
the computed HMAC digest, for every payload, signature header and secret that
reach the mismatch branch; the verification outcome is not the only observable
result. -/
theorem validateSignature_leaks_digest_on_mismatch
    (mac : List Nat → List Nat → List Nat) (payload : List Nat)
    (signature : List Char) (secret : List Nat)
    (h : (ValidateSignature mac payload signature secret).1
          = some SignatureError.signatureMismatch) :
    (ValidateSignature mac payload signature secret).2 ≠ []
    ∧ mac secret payload
        ∈ (ValidateSignature mac payload signature secret).2.map Prod.fst := by
  unfold ValidateSignature at h ⊢
  split at h
  · simp_all
  · split at h
    · simp_all
    · split at h
      · simp_all
      · dsimp only at h ⊢
        split at h
        · simp_all
        · simp_all

/-- Stub MAC function used only to instantiate the digest-leak theorem at a
concrete input. -/
def constMac : List Nat → List Nat → List Nat := fun _ _ => [171]

/-- Witness for C1: a concrete mismatching delivery on which the computed
digest appears in the debug output. -/
theorem validateSignature_leaks_digest_on_mismatch_witness :
    (ValidateSignature constMac [] "sha256=00".data []).2 ≠ []
    ∧ constMac [] []
        ∈ (ValidateSignature constMac [] "sha256=00".data []).2.map Prod.fst := by
  exact validateSignature_leaks_digest_on_mismatch constMac [] "sha256=00".data []
    (by decide)

end GitVigil
